import Mathlib

/-!
# Verification of the Enterprise Agentic Platform core (src/src/App.js)

A shallow embedding of the Plan Orchestration Engine and the
Embedding-Based Retrieval Engine of `src/src/App.js`, together with
theorems settling the spec claims about them.

Modelling conventions:
* Texts are `List Char`; capability (agent) names are `String`
  (they are only compared for equality in a `switch`).
* JavaScript numbers that only ever hold small integers/indices are `ℕ`
  or `ℤ` (the chunker's loop counter `i` is `ℤ`, since with
  `overlap > size` the JS counter goes negative).
* Embedding vectors are `List ℚ` (the claims are about ordering and
  determinism of scores, not floating-point rounding).
* The language-model collaborator (`callGeminiAPI`) and the embedding
  collaborator are oracles passed in as parameters, per spec sections 1
  and 6 which place them outside the core.  The embedding collaborator
  is `Option`-valued (Modelled from the spec: `embed(text) ->
  vector<float> | fails`; the reference implementation's
  `getClientSideEmbedding` is referenced by `src/src/App.js` but its
  definition is not among the files under `src/`).
* JS `String.prototype.replace(pat, rep)` with a string pattern replaces
  the first occurrence only, and its replacement string undergoes the
  `$`-substitution of GetSubstitution (`$$`, `$&`, a dollar with a
  backquote, `$'`; with a string pattern there are no capture groups, so
  every other `$` is literal) — `expandReplacement` models this.
* React state captured by the render's closures does not change for the
  in-flight run: `setAttachedImage(null)` only affects future renders,
  so every step of one plan execution reads the same captured session.
-/

/-- Shorthand: a string literal as the `List Char` text representation
used throughout the model. -/
def txt (s : String) : List Char := s.toList

/-- Whether `pat` occurs as a contiguous substring of `s` (the test JS
`indexOf` performs). -/
def occursIn (pat s : List Char) : Bool :=
  pat.isPrefixOf s ||
    match s with
    | [] => false
    | _ :: rest => occursIn pat rest

/-- Split `s` at the first occurrence of `pat`: `some (before, after)`
with `s = before ++ pat ++ after` and no earlier occurrence, `none` when
`pat` does not occur.  This is JS `indexOf`, shared by `replace` and by
the planner's fenced-block regex. -/
def splitAtFirst (pat : List Char) : List Char → Option (List Char × List Char)
  | [] => if pat.isPrefixOf ([] : List Char) then some ([], []) else none
  | c :: t =>
    if pat.isPrefixOf (c :: t) then some ([], (c :: t).drop pat.length)
    else (splitAtFirst pat t).map (fun pr => (c :: pr.1, pr.2))

/-- ECMA-262 GetSubstitution for a string pattern, applied by
`String.prototype.replace` to the replacement string: `$$` is a literal
dollar, `$&` the matched text, a dollar followed by a backquote
(`Char.ofNat 96`) the portion before the match, `$'` the portion after
it.  A string pattern has no capture groups, so `$n`, `$nn` and
`$<name>` fall to the last branch: the dollar is kept literally and
scanning resumes at the next character. -/
def expandReplacement (before matched after : List Char) : List Char → List Char
  | [] => []
  | c :: rest =>
    if c = '$' then
      match rest with
      | [] => [c]
      | d :: rest2 =>
        if d = '$' then '$' :: expandReplacement before matched after rest2
        else if d = '&' then matched ++ expandReplacement before matched after rest2
        else if d = Char.ofNat 96 then before ++ expandReplacement before matched after rest2
        else if d = '\'' then after ++ expandReplacement before matched after rest2
        else '$' :: expandReplacement before matched after (d :: rest2)
    else c :: expandReplacement before matched after rest

/-- JS `str.replace(pat, rep)` with a string `pat`: replace the first
(leftmost) occurrence of `pat` with the `$`-expanded replacement, leave
the text unchanged if `pat` does not occur.  (JS `''.replace('', r)`
matches the empty pattern at position 0, which `splitAtFirst` also
reproduces.) -/
def replaceFirst (s pat rep : List Char) : List Char :=
  match splitAtFirst pat s with
  | none => s
  | some pr => pr.1 ++ expandReplacement pr.1 pat pr.2 rep ++ pr.2

/-! ## Text Chunker (App.js line 240)

`chunkText = (text, chunkSize = 1000, overlap = 200) => { const chunks
= []; for (let i = 0; i < text.length; i += chunkSize - overlap) {
chunks.push(text.substring(i, i + chunkSize)); } return chunks; }`

The `for` loop is embedded as a guarded step function plus a
fuel-bounded runner, so that the non-terminating behaviour at
`overlap ≥ size` is itself a provable fact (`none` for every fuel)
rather than being defined away. -/

/-- JS `String.prototype.substring(a, b)`: each argument is clamped into
`[0, length]` and the two are swapped when `a > b`. -/
def jsSubstring (s : List Char) (a b : ℤ) : List Char :=
  (s.take (max (max 0 (min a (s.length : ℤ))) (max 0 (min b (s.length : ℤ)))).toNat).drop
    (min (max 0 (min a (s.length : ℤ))) (max 0 (min b (s.length : ℤ)))).toNat

/-- One execution of the chunker's loop body: push
`text.substring(i, i + chunkSize)`, then `i += chunkSize - overlap`
(integer arithmetic: with `overlap > chunkSize` the JS counter really
goes negative). -/
def chunkBody (text : List Char) (chunkSize overlap : ℕ)
    (st : ℤ × List (List Char)) : ℤ × List (List Char) :=
  (st.1 + ((chunkSize : ℤ) - (overlap : ℤ)),
    st.2 ++ [jsSubstring text st.1 (st.1 + (chunkSize : ℤ))])

/-- The chunker's loop, `fuel` caps the number of iterations: `none`
means the guard `i < text.length` still held after `fuel` iterations
(the JS loop has not terminated). -/
def chunkRun (text : List Char) (chunkSize overlap : ℕ) :
    ℕ → ℤ × List (List Char) → Option (ℤ × List (List Char))
  | fuel, st =>
    if st.1 < (text.length : ℤ) then
      match fuel with
      | 0 => none
      | fuel' + 1 => chunkRun text chunkSize overlap fuel' (chunkBody text chunkSize overlap st)
    else some st

/-- `chunkText(text, chunkSize, overlap)`.  `text.length + 1` iterations
always suffice when `overlap < chunkSize` (the counter then advances by
at least 1 per iteration), so `none` is exactly the non-terminating
configurations.  The source's default arguments are `1000` and `200`;
call sites of the model pass them explicitly. -/
def chunkText (text : List Char) (chunkSize overlap : ℕ) : Option (List (List Char)) :=
  (chunkRun text chunkSize overlap (text.length + 1) (0, [])).map Prod.snd

/-! ## Vector Index & Retrieval Engine (App.js lines 186-209, 241) -/

/-- `dotProduct = (vecA, vecB) => { let p = 0; for (let i = 0; i <
vecA.length; i++) { p += vecA[i] * vecB[i]; } return p; }` — the JS loop
runs over `vecA`'s indices; the `zipWith` form coincides with it
whenever `vecB` is at least as long as `vecA` (the index invariant keeps
all embeddings of one fixed dimensionality). -/
def dotProduct (vecA vecB : List ℚ) : ℚ :=
  (List.zipWith (fun a b => a * b) vecA vecB).sum

/-- One record of the vector store: `{ fileName, chunk, embedding }`
(App.js line 197).  `embedding` is `Option`-valued because the embedding
collaborator can fail (`null`); ingest filters those out. -/
structure ChunkRec where
  fileName : List Char
  chunk : List Char
  embedding : Option (List ℚ)
deriving DecidableEq

/-- A store record extended with its query score: the spread
`{...v, similarity: dotProduct(queryEmbedding, v.embedding)}`
(App.js line 206). -/
structure Scored where
  entry : ChunkRec
  similarity : ℚ
deriving DecidableEq

/-- The ordering realised by the stable JS sort with comparator
`(a, b) => b.similarity - a.similarity`: `a` may be placed before `b`
exactly when `a`'s score is at least `b`'s. -/
def simDesc (a b : Scored) : Prop := b.similarity ≤ a.similarity

instance : DecidableRel simDesc :=
  fun a b => inferInstanceAs (Decidable (b.similarity ≤ a.similarity))

/-- `findSimilarChunks` (App.js lines 202-209): empty store or model not
ready gives `[]`; a failed query embedding gives `[]`; otherwise score
every stored chunk by dot product, sort descending (JS
`Array.prototype.sort` is stable, which `insertionSort` with the
non-strict relation `simDesc` realises) and keep the top 3
(`slice(0, 3)`). -/
def findSimilarChunks (embed : List Char → Option (List ℚ)) (modelReady : Bool)
    (vectorStore : List ChunkRec) (query : List Char) : List Scored :=
  if vectorStore.length = 0 ∨ modelReady = false then []
  else
    match embed query with
    | none => []
    | some queryEmbedding =>
      let similarities := vectorStore.map
        (fun v => Scored.mk v (dotProduct queryEmbedding (v.embedding.getD [])))
      (List.insertionSort simDesc similarities).take 3

/-- Pair each element with its 0-based position (insertion order),
starting at `n`. -/
def withIdx : ℕ → List Scored → List (ℕ × Scored)
  | _, [] => []
  | n, a :: t => (n, a) :: withIdx (n + 1) t

/-- The claim's ranking order, stated from the spec's words: score
descending, ties broken by original insertion index ascending (first
inserted wins). -/
def rankLex (a b : ℕ × Scored) : Prop :=
  b.2.similarity < a.2.similarity ∨ (a.2.similarity = b.2.similarity ∧ a.1 ≤ b.1)

instance : DecidableRel rankLex :=
  fun a b => inferInstanceAs
    (Decidable (b.2.similarity < a.2.similarity ∨
      (a.2.similarity = b.2.similarity ∧ a.1 ≤ b.1)))

/-- The ranking the claim describes (a definition following the spec's
words, to compare `findSimilarChunks` against): score each chunk, sort
by the lexicographic order (score descending, insertion index
ascending), return the top 3. -/
def rankedBySpec (queryEmbedding : List ℚ) (store : List ChunkRec) : List Scored :=
  ((List.insertionSort rankLex
      (withIdx 0 (store.map
        (fun v => Scored.mk v (dotProduct queryEmbedding (v.embedding.getD [])))))).map
    Prod.snd).take 3

/-- The per-file part of `processAndEmbedFiles` (App.js lines 195-197):
chunk the text with the default parameters, embed each chunk, keep only
records whose embedding succeeded (`filter(v => v.embedding)`; a present
vector is always truthy in JS, `null`/`undefined` are not). -/
def processFileVectors (embed : List Char → Option (List ℚ))
    (fileName textContent : List Char) : List ChunkRec :=
  match chunkText textContent 1000 200 with
  | some chunks =>
    (chunks.map (fun chunk => ChunkRec.mk fileName chunk (embed chunk))).filter
      (fun v => v.embedding.isSome)
  | none => []

/-- `processAndEmbedFiles` (App.js lines 186-201) on the vector store:
files are `(name, extracted text)` pairs, `none` standing for an image
file or a failed parse, both of which the loop skips (`continue`); the
batch is appended to the store (`[...prev, ...newVectors]`).  When the
embedding model is not ready the function returns without touching the
store. -/
def processAndEmbedFiles (embed : List Char → Option (List ℚ)) (modelReady : Bool)
    (vectorStore : List ChunkRec) (files : List (List Char × Option (List Char))) :
    List ChunkRec :=
  if modelReady = false then vectorStore
  else
    vectorStore ++
      files.foldl (fun acc f =>
        match f.2 with
        | none => acc
        | some t => acc ++ processFileVectors embed f.1 t) []

/-- The vector-store part of `removeFile` (App.js line 235):
`prev.filter(v => v.fileName !== fileName)`. -/
def removeFileChunks (vectorStore : List ChunkRec) (fileName : List Char) : List ChunkRec :=
  vectorStore.filter (fun v => v.fileName != fileName)

/-! ## Planner (App.js lines 40-74)

The language-model response (`callGeminiAPI`'s return value) is the
`Option (List Char)` input: `none` is a failed call (the source then
holds `null`, and `null.match` throws, landing in the same `catch` as a
parse failure).  `JSON.parse` is embedded as a fuel-bounded recursive
descent parser for the JSON grammar; fuel `2 * length + 2` is enough for
every input the grammar accepts (each two units of fuel consume at least
one input character). -/

/-- JSON values.  Number literals keep their lexeme: no claim depends on
numeric values, only on which strings parse. -/
inductive Json where
  | null : Json
  | bool (b : Bool) : Json
  | num (lexeme : List Char) : Json
  | str (s : List Char) : Json
  | arr (elems : List Json) : Json
  | obj (members : List (List Char × Json)) : Json

/-- JSON insignificant whitespace. -/
def isJsonWs (c : Char) : Bool :=
  c = ' ' || c = '\n' || c = '\r' || c = '\t'

def skipWs (s : List Char) : List Char := s.dropWhile isJsonWs

/-- Value of a hexadecimal digit. -/
def hexVal (c : Char) : Option ℕ :=
  if c.isDigit then some (c.toNat - 48)
  else if 'a' ≤ c && c ≤ 'f' then some (c.toNat - 87)
  else if 'A' ≤ c && c ≤ 'F' then some (c.toNat - 55)
  else none

/-- Body of a JSON string literal, after the opening quote: returns the
decoded content and the input after the closing quote.  Escapes and the
ban on raw control characters follow the JSON grammar. -/
def parseStringBody : ℕ → List Char → Option (List Char × List Char)
  | 0, _ => none
  | _ + 1, [] => none
  | fuel + 1, c :: rest =>
    if c = '"' then some ([], rest)
    else if c = '\\' then
      match rest with
      | [] => none
      | e :: rest2 =>
        if e = '"' then (parseStringBody fuel rest2).map (fun pr => ('"' :: pr.1, pr.2))
        else if e = '\\' then (parseStringBody fuel rest2).map (fun pr => ('\\' :: pr.1, pr.2))
        else if e = '/' then (parseStringBody fuel rest2).map (fun pr => ('/' :: pr.1, pr.2))
        else if e = 'b' then (parseStringBody fuel rest2).map (fun pr => (Char.ofNat 8 :: pr.1, pr.2))
        else if e = 'f' then (parseStringBody fuel rest2).map (fun pr => (Char.ofNat 12 :: pr.1, pr.2))
        else if e = 'n' then (parseStringBody fuel rest2).map (fun pr => ('\n' :: pr.1, pr.2))
        else if e = 'r' then (parseStringBody fuel rest2).map (fun pr => ('\r' :: pr.1, pr.2))
        else if e = 't' then (parseStringBody fuel rest2).map (fun pr => ('\t' :: pr.1, pr.2))
        else if e = 'u' then
          match rest2 with
          | h1 :: h2 :: h3 :: h4 :: rest3 =>
            match hexVal h1, hexVal h2, hexVal h3, hexVal h4 with
            | some x1, some x2, some x3, some x4 =>
              (parseStringBody fuel rest3).map
                (fun pr => (Char.ofNat (((x1 * 16 + x2) * 16 + x3) * 16 + x4) :: pr.1, pr.2))
            | _, _, _, _ => none
          | _ => none
        else none
    else if c.toNat < 32 then none
    else (parseStringBody fuel rest).map (fun pr => (c :: pr.1, pr.2))

/-- A JSON number lexeme: `-? (0 | [1-9][0-9]*) frac? exp?`. -/
def parseNumber (s : List Char) : Option (List Char × List Char) :=
  let signPart : List Char × List Char :=
    match s with
    | '-' :: t => (['-'], t)
    | _ => ([], s)
  match signPart.2 with
  | [] => none
  | c :: _ =>
    if c.isDigit then
      let intPart : List Char × List Char :=
        match signPart.2 with
        | '0' :: t => (['0'], t)
        | other => other.span (fun d => d.isDigit)
      let fracPart : Option (List Char × List Char) :=
        match intPart.2 with
        | '.' :: t2 =>
          let ds := t2.span (fun d => d.isDigit)
          if ds.1.isEmpty then none else some ('.' :: ds.1, ds.2)
        | other => some ([], other)
      match fracPart with
      | none => none
      | some fp =>
        let expPart : Option (List Char × List Char) :=
          match fp.2 with
          | e :: t3 =>
            if e = 'e' || e = 'E' then
              let signExp : List Char × List Char :=
                match t3 with
                | '+' :: t4 => (['+'], t4)
                | '-' :: t4 => (['-'], t4)
                | _ => ([], t3)
              let ds := signExp.2.span (fun d => d.isDigit)
              if ds.1.isEmpty then none else some (e :: signExp.1 ++ ds.1, ds.2)
            else some ([], fp.2)
          | [] => some ([], [])
        match expPart with
        | none => none
        | some ep => some (signPart.1 ++ intPart.1 ++ fp.1 ++ ep.1, ep.2)
    else none

/-- A keyword literal (`true`, `false`, `null`). -/
def parseLit (lit : List Char) (v : Json) (s : List Char) : Option (Json × List Char) :=
  if lit.isPrefixOf s then some (v, s.drop lit.length) else none

mutual

/-- One JSON value, leading whitespace allowed; returns the value and
the unconsumed input. -/
def parseValue : ℕ → List Char → Option (Json × List Char)
  | 0, _ => none
  | fuel + 1, s0 =>
    let s := skipWs s0
    match s with
    | [] => none
    | c :: rest =>
      if c = '"' then (parseStringBody (fuel + 1) rest).map (fun pr => (Json.str pr.1, pr.2))
      else if c = '[' then
        match skipWs rest with
        | ']' :: r2 => some (Json.arr [], r2)
        | r => (parseElems fuel r).map (fun pr => (Json.arr pr.1, pr.2))
      else if c = '\x7b' then
        match skipWs rest with
        | '\x7d' :: r2 => some (Json.obj [], r2)
        | r => (parseMembers fuel r).map (fun pr => (Json.obj pr.1, pr.2))
      else if c = 't' then parseLit (txt "true") (Json.bool true) s
      else if c = 'f' then parseLit (txt "false") (Json.bool false) s
      else if c = 'n' then parseLit (txt "null") Json.null s
      else (parseNumber s).map (fun pr => (Json.num pr.1, pr.2))

/-- The non-empty element list of a JSON array, up to and including the
closing bracket. -/
def parseElems : ℕ → List Char → Option (List Json × List Char)
  | 0, _ => none
  | fuel + 1, s =>
    match parseValue fuel s with
    | none => none
    | some (v, r) =>
      match skipWs r with
      | ',' :: r2 => (parseElems fuel r2).map (fun pr => (v :: pr.1, pr.2))
      | ']' :: r2 => some ([v], r2)
      | _ => none

/-- The non-empty member list of a JSON object, up to and including the
closing brace. -/
def parseMembers : ℕ → List Char → Option (List (List Char × Json) × List Char)
  | 0, _ => none
  | fuel + 1, s =>
    match skipWs s with
    | '"' :: r =>
      match parseStringBody (fuel + 1) r with
      | none => none
      | some (key, r2) =>
        match skipWs r2 with
        | ':' :: r3 =>
          match parseValue fuel r3 with
          | none => none
          | some (v, r4) =>
            match skipWs r4 with
            | ',' :: r5 => (parseMembers fuel r5).map (fun pr => ((key, v) :: pr.1, pr.2))
            | '\x7d' :: r5 => some ((key, v) :: [], r5)
            | _ => none
        | _ => none
    | _ => none

end

/-- `JSON.parse`: one value, nothing but whitespace before or after. -/
def parseJson (s : List Char) : Option Json :=
  match parseValue (2 * s.length + 2) s with
  | some (v, rest) => if (skipWs rest).isEmpty then some v else none
  | none => none

/-- The opening of the fenced block the planner's regex
searches for (three backticks, `json`, a newline). -/
def fenceOpen : List Char := txt "```json\n"

/-- The closing searched after the opening (a newline, three
backticks). -/
def fenceClose : List Char := txt "\n```"

/-- The capture group of `planJsonString.match(/```json\n([\s\S]*?)\n```/)`
(App.js line 64): text between the first opening fence and the earliest
closing fence after it. -/
def extractFenced (s : List Char) : Option (List Char) :=
  match splitAtFirst fenceOpen s with
  | none => none
  | some pr =>
    match splitAtFirst fenceClose pr.2 with
    | none => none
    | some pr2 => some pr2.1

/-- The planner's fallback plan `[{ agent: 'WebSearchAgent', prompt }]`
(App.js line 72) as the JSON value the caller receives. -/
def fallbackPlan (prompt : List Char) : Json :=
  Json.arr [Json.obj [(txt "agent", Json.str (txt "WebSearchAgent")),
                      (txt "prompt", Json.str prompt)]]

/-- Which text `callPlanner` hands to `JSON.parse`: the fenced capture
when one was found and is non-empty (JS truthiness: the empty capture is
falsy), the whole response otherwise. -/
def attemptedInput (s : List Char) : List Char :=
  match extractFenced s with
  | some cap => if cap.isEmpty then s else cap
  | none => s

/-- The parsing part of `callPlanner` (App.js lines 61-73): the first
argument is the language-model response (`none` = failed call, whose
`null.match` throws into the same `catch`).  A successful `JSON.parse`
result is returned as-is; any throw lands in the `catch`, which returns
the fallback plan. -/
def callPlanner (planJsonString : Option (List Char)) (prompt : List Char) : Json :=
  match planJsonString with
  | none => fallbackPlan prompt
  | some s =>
    match extractFenced s with
    | some cap =>
      if cap.isEmpty then
        match parseJson s with
        | some v => v
        | none => fallbackPlan prompt
      else
        match parseJson cap with
        | some v => v
        | none => fallbackPlan prompt
    | none =>
      match parseJson s with
      | some v => v
      | none => fallbackPlan prompt

/-- Whether an object member list has a string value under `key`. -/
def isStringField (members : List (List Char × Json)) (key : List Char) : Bool :=
  match members.lookup key with
  | some (Json.str _) => true
  | _ => false

/-- Whether a JSON value is a well-formed plan step: an object with
string `agent` and `prompt` fields (spec section 6's wire format). -/
def isPlanStepJson : Json → Bool
  | Json.obj members => isStringField members (txt "agent") && isStringField members (txt "prompt")
  | _ => false

/-- The claim's "valid, non-empty Plan", stated from the spec's words: a
non-empty JSON array of well-formed plan steps. -/
def isValidPlan : Json → Bool
  | Json.arr elems => !elems.isEmpty && elems.all isPlanStepJson
  | _ => false

/-! ## Session state, capability dispatch and the Plan Executor
(App.js lines 76-144) -/

/-- An attached image file (`{ name, type, content }` of the upload
handler, `content` being the base64 payload). -/
structure ImageFile where
  name : List Char
  mime : List Char
  content : List Char
deriving DecidableEq

/-- An uploaded file as the Summarization handler sees it:
`textContent` is present once parsing succeeded. -/
structure FileData where
  name : List Char
  textContent : Option (List Char)
deriving DecidableEq

/-- The session state the handlers read or write: the attached image,
the uploaded files, the vector store and the embedding model's
readiness.  (Chat history and loading flags are presentation state the
claims do not touch.) -/
structure Session where
  attachedImage : Option ImageFile
  uploadedFiles : List FileData
  vectorStore : List ChunkRec
  modelReady : Bool
deriving DecidableEq

/-- The external collaborators (spec section 6): the language model for
text, the language model with an image payload, the embedding model.
The two `callGeminiAPI` oracles are total: the claims touching the
executor are about its success path (a failed call nulls the text and
sets the error banner, which no claim exercises). -/
structure Oracles where
  llm : List Char → List Char
  llmImg : List Char → ImageFile → List Char
  embed : List Char → Option (List ℚ)

/-- A handler's response `{ role: 'model', agent, parts: [{ text }],
sources? }`; the constant `role` wrapper is dropped, `parts[0].text` is
`text`. -/
structure AgentMsg where
  agent : String
  text : List Char
  sources : Option (List (List Char × List Char))
deriving DecidableEq

/-- `handleKnowledgeQuery`'s no-result message (App.js line 113). -/
def noInfoText : List Char :=
  txt "I couldn't find any relevant information in the uploaded documents to answer that."

/-- The retrieved-context block (App.js line 114). -/
def knowledgeContext (similarChunks : List Scored) : List Char :=
  List.intercalate (txt "\n\n---\n\n")
    (similarChunks.map (fun c =>
      txt "Source: " ++ c.entry.fileName ++ txt "\nContent:\n" ++ c.entry.chunk))

/-- The augmented prompt (App.js line 115). -/
def knowledgeAugmented (context prompt : List Char) : List Char :=
  txt "Based *only* on the context below, answer the user's question.\n\n--- CONTEXT ---\n" ++
    context ++ txt "\n--- END CONTEXT ---\n\nUser Question: \"" ++ prompt ++ txt "\""

/-- `handleKnowledgeQuery` (App.js lines 111-119). -/
def handleKnowledgeQuery (O : Oracles) (sess : Session) (prompt : List Char) : AgentMsg :=
  let similarChunks := findSimilarChunks O.embed sess.modelReady sess.vectorStore prompt
  if similarChunks.isEmpty then AgentMsg.mk "KnowledgeAgent" noInfoText none
  else
    AgentMsg.mk "KnowledgeAgent"
      (O.llm (knowledgeAugmented (knowledgeContext similarChunks) prompt))
      (some (similarChunks.map (fun c => (c.entry.fileName, c.entry.chunk))))

/-- The web-search wrapper prompt (App.js line 121). -/
def webSearchWrap (prompt : List Char) : List Char :=
  txt "You are a web search agent. Find relevant information for the query and provide a concise answer with 2-3 simulated markdown links. Query: \"" ++
    prompt ++ txt "\""

/-- `handleWebSearchQuery` (App.js lines 120-124). -/
def handleWebSearchQuery (O : Oracles) (prompt : List Char) : AgentMsg :=
  AgentMsg.mk "WebSearchAgent" (O.llm (webSearchWrap prompt)) none

/-- The code-generation wrapper prompt (App.js line 126). -/
def codeGenWrap (prompt : List Char) : List Char :=
  txt "You are a code generation agent. Generate a code snippet for the request. Provide only the code in a markdown block. Request: \"" ++
    prompt ++ txt "\""

/-- `handleCodeGenerationQuery` (App.js lines 125-129). -/
def handleCodeGenerationQuery (O : Oracles) (prompt : List Char) : AgentMsg :=
  AgentMsg.mk "CodeGenerationAgent" (O.llm (codeGenWrap prompt)) none

/-- The summarization wrapper prompt (App.js line 135). -/
def summaryWrap (t : List Char) : List Char :=
  txt "Provide a concise, professional summary of the following text:\n\n--- TEXT ---\n" ++
    t ++ txt "\n--- END TEXT ---"

/-- The summarization soft-failure message (App.js line 134). -/
def summarizeErrText (prompt : List Char) : List Char :=
  txt "Error: Could not find document or text to summarize for \"" ++ prompt ++ txt "\"."

/-- `handleSummarizationQuery` (App.js lines 130-138): resolve the text
to summarize by file-name lookup, falling back to the prompt itself; the
empty string and an absent `textContent` are both falsy, landing in the
error message. -/
def handleSummarizationQuery (O : Oracles) (sess : Session) (prompt : List Char) : AgentMsg :=
  let textToSummarize : Option (List Char) :=
    match sess.uploadedFiles.find? (fun f => f.name == prompt) with
    | some f => f.textContent
    | none => some prompt
  match textToSummarize with
  | some t =>
    if t.isEmpty then AgentMsg.mk "SummarizationAgent" (summarizeErrText prompt) none
    else AgentMsg.mk "SummarizationAgent" (O.llm (summaryWrap t)) none
  | none => AgentMsg.mk "SummarizationAgent" (summarizeErrText prompt) none

/-- The image-analysis soft-failure message (App.js line 140). -/
def noImageText : List Char := txt "Error: No image was attached."

/-- `handleImageAnalysisQuery` (App.js lines 139-144): soft-fails
without an attached image; otherwise forwards prompt and image to the
language model and clears the attached image
(`setAttachedImage(null)`).  The returned session is the state FUTURE
renders observe after this call's update; the in-flight plan run keeps
reading its render-captured session. -/
def handleImageAnalysisQuery (O : Oracles) (sess : Session) (prompt : List Char) :
    AgentMsg × Session :=
  match sess.attachedImage with
  | none => (AgentMsg.mk "ImageAnalysisAgent" noImageText none, sess)
  | some img =>
    (AgentMsg.mk "ImageAnalysisAgent" (O.llmImg prompt img) none,
      { sess with attachedImage := none })

/-- The dispatcher's unknown-capability message (App.js line 105). -/
def unknownAgentText (agent : String) : List Char :=
  txt "Error: Unknown agent \"" ++ agent.toList ++ txt "\"."

/-- The five registered capability names, in the switch's order. -/
def knownAgents : List String :=
  ["KnowledgeAgent", "WebSearchAgent", "CodeGenerationAgent",
   "SummarizationAgent", "ImageAnalysisAgent"]

/-- `callAgent` (App.js lines 97-108): the capability dispatch switch.
The second component is the session state future renders observe after
the call: handlers that do not touch session state return it unchanged,
`handleImageAnalysisQuery` may clear the attached image. -/
def callAgent (O : Oracles) (sess : Session) (agent : String) (prompt : List Char) :
    AgentMsg × Session :=
  if agent = "KnowledgeAgent" then (handleKnowledgeQuery O sess prompt, sess)
  else if agent = "WebSearchAgent" then (handleWebSearchQuery O prompt, sess)
  else if agent = "CodeGenerationAgent" then (handleCodeGenerationQuery O prompt, sess)
  else if agent = "SummarizationAgent" then (handleSummarizationQuery O sess prompt, sess)
  else if agent = "ImageAnalysisAgent" then handleImageAnalysisQuery O sess prompt
  else (AgentMsg.mk agent (unknownAgentText agent) none, sess)

/-- A plan step `{ agent, prompt }` as the executor reads it. -/
structure PlanStep where
  agent : String
  prompt : List Char
deriving DecidableEq

/-- The placeholder text for a step-output key: `{{key}}`. -/
def placeholderOf (key : List Char) : List Char :=
  txt "\x7b\x7b" ++ key ++ txt "\x7d\x7d"

/-- The substitution loop of `executePlan` (App.js lines 83-85):
`for (const key in stepOutputs) currentPrompt =
currentPrompt.replace(...)` — keys in insertion order (they are
non-index string keys), each replacing the first occurrence of its
placeholder. -/
def resolvePrompt (stepOutputs : List (List Char × List Char)) (prompt : List Char) :
    List Char :=
  stepOutputs.foldl (fun cur kv => replaceFirst cur (placeholderOf kv.1) kv.2) prompt

/-- The key recorded for the 1-based step `n`: `step_n_output`. -/
def stepKey (n : ℕ) : List Char :=
  txt "step_" ++ Nat.toDigits 10 n ++ txt "_output"

/-- What one executed step leaves behind: the resolved prompt it was
dispatched with (the progress notification's `task`, App.js line 87) and
the handler's final message. -/
structure StepTrace where
  resolvedPrompt : List Char
  result : AgentMsg
deriving DecidableEq

/-- The loop of `executePlan` (App.js lines 76-95): `stepOutputs` is the
accumulated key/output association in insertion order, `i` the 0-based
index of the next step.  `sess` is the session state captured by the
render whose `handleSendMessage` started the run: every handler of this
run reads that same captured state (a React state setter such as
`setAttachedImage(null)` only changes what FUTURE renders see, never the
in-flight run's closures), so no session is threaded between steps. -/
def execSteps (O : Oracles) (sess : Session) :
    List (List Char × List Char) → ℕ → List PlanStep → List StepTrace
  | _, _, [] => []
  | stepOutputs, i, step :: rest =>
    let currentPrompt := resolvePrompt stepOutputs step.prompt
    let r := callAgent O sess step.agent currentPrompt
    StepTrace.mk currentPrompt r.1 ::
      execSteps O sess (stepOutputs ++ [(stepKey (i + 1), r.1.text)]) (i + 1) rest

/-- `executePlan` (App.js lines 76-95): run all steps in order from an
empty `stepOutputs`, every step reading the render-captured session. -/
def executePlan (O : Oracles) (sess : Session) (plan : List PlanStep) :
    List StepTrace :=
  execSteps O sess [] 0 plan

/-! ## Concrete witness data -/

/-- A concrete collaborator assignment for witnesses and
counterexamples: the language model always answers `RESULT` (with an
image, `IMGRESULT`), the embedding model always returns the unit
vector `[1]`. -/
def demoOracles : Oracles :=
  { llm := fun _ => txt "RESULT"
    llmImg := fun _ _ => txt "IMGRESULT"
    embed := fun _ => some [1] }

/-- An empty session with the embedding model ready. -/
def demoSession : Session :=
  { attachedImage := none, uploadedFiles := [], vectorStore := [], modelReady := true }

/-- A concrete attached image. -/
def demoImage : ImageFile :=
  ImageFile.mk (txt "i.png") (txt "image/png") (txt "AAAA")

/-! ## Theorems

First the shared helper lemmas about the string utilities, then one
theorem (plus witness or counterexample) per claim. -/

theorem occursIn_cons (pat : List Char) (c : Char) (t : List Char) :
    occursIn pat (c :: t) = (pat.isPrefixOf (c :: t) || occursIn pat t) := by
  rfl

theorem splitAtFirst_of_not_occurs (pat s : List Char)
    (h : occursIn pat s = false) : splitAtFirst pat s = none := by
  induction s with
  | nil =>
    unfold occursIn at h
    simp only [Bool.or_eq_false_iff] at h
    unfold splitAtFirst
    rw [if_neg (by simp [h.1])]
  | cons c t ih =>
    rw [occursIn_cons, Bool.or_eq_false_iff] at h
    unfold splitAtFirst
    rw [if_neg (by simp [h.1]), ih h.2]
    rfl

theorem replaceFirst_of_not_occurs (s pat rep : List Char)
    (h : occursIn pat s = false) : replaceFirst s pat rep = s := by
  unfold replaceFirst
  rw [splitAtFirst_of_not_occurs pat s h]

/-- If a prefix-test occurrence of `pat` would start inside `p` then it
already shows up inside `p ++ pat.dropLast`: the contrapositive lets
`splitAtFirst` walk past `p`. -/
theorem isPrefixOf_shorten (p pat q : List Char) (hp : p ≠ [])
    (hne : pat ≠ [])
    (h : pat.isPrefixOf (p ++ (pat ++ q)) = true) :
    pat.isPrefixOf (p ++ pat.dropLast) = true := by
  rw [List.isPrefixOf_iff_prefix] at h ⊢
  have hlen : pat.length ≤ p.length + (pat.length - 1) := by
    have : 1 ≤ p.length := by
      cases p with
      | nil => exact absurd rfl hp
      | cons a t => simp
    have : 1 ≤ pat.length := by
      cases pat with
      | nil => exact absurd rfl hne
      | cons a t => simp
    omega
  have htake : pat <+: (p ++ (pat ++ q)).take (p.length + (pat.length - 1)) :=
    List.prefix_take_iff.2 ⟨h, hlen⟩
  rw [List.take_append, List.take_append_of_le_length (by omega),
    ← List.dropLast_eq_take] at htake
  exact htake

/-- `splitAtFirst` splits exactly at the first occurrence: when no
occurrence of `pat` starts before position `p.length`, the text
`p ++ pat ++ q` splits as `(p, q)`. -/
theorem splitAtFirst_at_first_occurrence (p pat q : List Char)
    (hne : pat ≠ [])
    (hfirst : occursIn pat (p ++ pat.dropLast) = false) :
    splitAtFirst pat (p ++ pat ++ q) = some (p, q) := by
  induction p with
  | nil =>
    cases pat with
    | nil => exact absurd rfl hne
    | cons pc pt =>
      show splitAtFirst (pc :: pt) (pc :: (pt ++ q)) = some ([], q)
      unfold splitAtFirst
      rw [if_pos (by rw [List.isPrefixOf_iff_prefix]; exact ⟨q, rfl⟩)]
      show some (([] : List Char), ((pc :: pt) ++ q).drop (pc :: pt).length) = some ([], q)
      rw [List.drop_left]
  | cons c p' ih =>
    simp only [List.cons_append] at hfirst
    rw [occursIn_cons, Bool.or_eq_false_iff] at hfirst
    have hp : pat.isPrefixOf ((c :: p') ++ pat ++ q) = false := by
      by_contra hcon
      have htrue : pat.isPrefixOf ((c :: p') ++ (pat ++ q)) = true := by
        rw [← List.append_assoc]
        exact eq_true_of_ne_false hcon
      have hshort := isPrefixOf_shorten (c :: p') pat q (by simp) hne htrue
      simp only [List.cons_append] at hshort
      rw [hshort] at hfirst
      exact absurd hfirst.1 (by simp)
    show splitAtFirst pat (c :: (p' ++ pat ++ q)) = some (c :: p', q)
    unfold splitAtFirst
    rw [if_neg (by simp_all), ih hfirst.2]
    rfl

/-- A replacement string without a dollar sign passes through the
`$`-substitution untouched. -/
theorem expandReplacement_no_dollar (before matched after : List Char) :
    ∀ rep : List Char, '$' ∉ rep →
      expandReplacement before matched after rep = rep := by
  intro rep
  induction rep with
  | nil => intro _; rfl
  | cons c rest ih =>
    intro h
    have hc : ¬ c = '$' := fun hcc => h (by simp [hcc])
    have hrest : '$' ∉ rest := fun hm => h (by simp [hm])
    unfold expandReplacement
    rw [if_neg hc, ih hrest]

/-- `replaceFirst` replaces exactly the first occurrence, inserting the
`$`-expanded replacement: if no occurrence of `pat` starts before
position `p.length`, the text `p ++ pat ++ q` becomes
`p ++ expandReplacement p pat q rep ++ q`. -/
theorem replaceFirst_at_first_occurrence (p pat q rep : List Char)
    (hne : pat ≠ [])
    (hfirst : occursIn pat (p ++ pat.dropLast) = false) :
    replaceFirst (p ++ pat ++ q) pat rep =
      p ++ expandReplacement p pat q rep ++ q := by
  unfold replaceFirst
  rw [splitAtFirst_at_first_occurrence p pat q hne hfirst]

/-- **C1 (amended).**  During plan execution, resolving the prompt of
step `i` replaces, for each previously completed step `j < i`, only the
FIRST (leftmost) literal occurrence of `\x7b\x7bstep_j_output\x7d\x7d`
(JS `String.replace` with a string pattern is single-occurrence), and
what is inserted is the step's recorded output as processed by the JS
replacement-string `$`-substitution — which is the output text itself
whenever it contains no `$`; the two-step scenario with a single
occurrence still dispatches step 2 with prompt `use RESULT`. -/
theorem executePlan_substitutes_first_occurrence :
    (∀ (key out p q : List Char),
        occursIn (placeholderOf key) (p ++ (placeholderOf key).dropLast) = false →
        resolvePrompt [(key, out)] (p ++ placeholderOf key ++ q) =
          p ++ expandReplacement p (placeholderOf key) q out ++ q) ∧
    (∀ (p key q out : List Char), '$' ∉ out →
        expandReplacement p (placeholderOf key) q out = out) ∧
    (executePlan demoOracles demoSession
        [PlanStep.mk "WebSearchAgent" (txt "x"),
         PlanStep.mk "WebSearchAgent" (txt "use \x7b\x7bstep_1_output\x7d\x7d")]).map
      StepTrace.resolvedPrompt = [txt "x", txt "use RESULT"] := by
  refine ⟨?_,
    fun p key q out h => expandReplacement_no_dollar p (placeholderOf key) q out h, rfl⟩
  intro key out p q hfirst
  have hne : placeholderOf key ≠ [] := by simp [placeholderOf, txt]
  simpa [resolvePrompt] using
    replaceFirst_at_first_occurrence p (placeholderOf key) q out hne hfirst

theorem executePlan_substitutes_first_occurrence_witness :
    resolvePrompt [(txt "step_1_output", txt "RESULT")]
        (txt "use " ++ placeholderOf (txt "step_1_output") ++ txt "!") =
      txt "use " ++ txt "RESULT" ++ txt "!" := by
  rw [executePlan_substitutes_first_occurrence.1 (txt "step_1_output") (txt "RESULT")
      (txt "use ") (txt "!") (by decide),
    executePlan_substitutes_first_occurrence.2.1 (txt "use ") (txt "step_1_output")
      (txt "!") (txt "RESULT") (by decide)]

/-- **C1 (counterexample).**  A step-2 template holding the placeholder
`\x7b\x7bstep_1_output\x7d\x7d` twice is dispatched with only the first
occurrence replaced, not both: the claim's "both occurrences replaced"
fails on the code. -/
theorem executePlan_double_placeholder_counterexample :
    ((executePlan demoOracles demoSession
        [PlanStep.mk "WebSearchAgent" (txt "x"),
         PlanStep.mk "WebSearchAgent"
           (txt "use \x7b\x7bstep_1_output\x7d\x7d and \x7b\x7bstep_1_output\x7d\x7d")]).map
      StepTrace.resolvedPrompt =
      [txt "x", txt "use RESULT and \x7b\x7bstep_1_output\x7d\x7d"]) ∧
    txt "use RESULT and \x7b\x7bstep_1_output\x7d\x7d" ≠ txt "use RESULT and RESULT" := by
  exact ⟨rfl, by decide⟩

/-- **C9.**  A placeholder referencing a step not yet completed, or an
out-of-range one, is left in the resolved prompt as literal text: at
step 1 nothing is substituted at all, and generally the substitution
pass leaves a prompt unchanged whenever no completed step's placeholder
occurs in it; the concrete scenario dispatches step 1 with
`\x7b\x7bstep_3_output\x7d\x7d x` verbatim. -/
theorem executePlan_unresolved_placeholder_passthrough :
    (∀ prompt : List Char, resolvePrompt [] prompt = prompt) ∧
    (∀ (stepOutputs : List (List Char × List Char)) (prompt : List Char),
        (∀ kv ∈ stepOutputs, occursIn (placeholderOf kv.1) prompt = false) →
        resolvePrompt stepOutputs prompt = prompt) ∧
    (executePlan demoOracles demoSession
        [PlanStep.mk "WebSearchAgent" (txt "\x7b\x7bstep_3_output\x7d\x7d x")]).map
      StepTrace.resolvedPrompt = [txt "\x7b\x7bstep_3_output\x7d\x7d x"] := by
  refine ⟨fun _ => rfl, ?_, rfl⟩
  intro stepOutputs
  induction stepOutputs with
  | nil => intro prompt _; rfl
  | cons kv rest ih =>
    intro prompt h
    have h1 : occursIn (placeholderOf kv.1) prompt = false := h kv (by simp)
    have h2 : ∀ kv' ∈ rest, occursIn (placeholderOf kv'.1) prompt = false :=
      fun kv' hm => h kv' (by simp [hm])
    show resolvePrompt rest (replaceFirst prompt (placeholderOf kv.1) kv.2) = prompt
    rw [replaceFirst_of_not_occurs prompt (placeholderOf kv.1) kv.2 h1]
    exact ih prompt h2

theorem executePlan_unresolved_placeholder_passthrough_witness :
    resolvePrompt [(txt "step_1_output", txt "OUT")]
        (txt "\x7b\x7bstep_3_output\x7d\x7d x") =
      txt "\x7b\x7bstep_3_output\x7d\x7d x" :=
  executePlan_unresolved_placeholder_passthrough.2.1
    [(txt "step_1_output", txt "OUT")] (txt "\x7b\x7bstep_3_output\x7d\x7d x")
    (by decide)

/-- Every step of a plan produces exactly one trace entry: execution
never aborts, whatever the capabilities are. -/
theorem execSteps_length (O : Oracles) (sess : Session)
    (stepOutputs : List (List Char × List Char)) (i : ℕ) (plan : List PlanStep) :
    (execSteps O sess stepOutputs i plan).length = plan.length := by
  induction plan generalizing stepOutputs i with
  | nil => rfl
  | cons step rest ih =>
    show (execSteps O sess _ _ (step :: rest)).length = _
    unfold execSteps
    simp [ih]

/-- **C8.**  Dispatching any capability name outside the five registered
handlers yields the soft-failure `StepResult` whose text contains that
capability name, the session untouched; and execution always proceeds
through every step of the plan (one trace entry per step, no
exception). -/
theorem callAgent_unknown_soft_failure (O : Oracles) (sess : Session)
    (agent : String) (prompt : List Char) (h : agent ∉ knownAgents) :
    callAgent O sess agent prompt =
      (AgentMsg.mk agent (unknownAgentText agent) none, sess) ∧
    List.IsInfix agent.toList (unknownAgentText agent) ∧
    (∀ plan : List PlanStep, (executePlan O sess plan).length = plan.length) := by
  refine ⟨?_, ?_, fun plan => execSteps_length O sess [] 0 plan⟩
  · simp only [knownAgents, List.mem_cons, List.not_mem_nil, or_false] at h
    push_neg at h
    obtain ⟨h1, h2, h3, h4, h5⟩ := h
    simp [callAgent, h1, h2, h3, h4, h5]
  · exact ⟨txt "Error: Unknown agent \"", txt "\".", by simp [unknownAgentText]⟩

theorem callAgent_unknown_soft_failure_witness :
    callAgent demoOracles demoSession "FooAgent" (txt "a") =
      (AgentMsg.mk "FooAgent" (unknownAgentText "FooAgent") none, demoSession) ∧
    (executePlan demoOracles demoSession
        [PlanStep.mk "FooAgent" (txt "a"), PlanStep.mk "WebSearchAgent" (txt "b")]).length =
      [PlanStep.mk "FooAgent" (txt "a"), PlanStep.mk "WebSearchAgent" (txt "b")].length :=
  ⟨(callAgent_unknown_soft_failure demoOracles demoSession "FooAgent" (txt "a")
      (by decide)).1,
   (callAgent_unknown_soft_failure demoOracles demoSession "FooAgent" (txt "a")
      (by decide)).2.2
     [PlanStep.mk "FooAgent" (txt "a"), PlanStep.mk "WebSearchAgent" (txt "b")]⟩

/-- **C10 (counterexample).**  In a two-step all-ImageAnalysis plan both
steps read the render-captured session (React state setters cannot
change the in-flight run's closures), so the second step does NOT
soft-fail with the no-image message: it analyzes the same attached image
again, refuting the claim. -/
theorem imageAnalysis_second_step_counterexample :
    (executePlan demoOracles { demoSession with attachedImage := some demoImage }
        [PlanStep.mk "ImageAnalysisAgent" (txt "p1"),
         PlanStep.mk "ImageAnalysisAgent" (txt "p2")]).map
      (fun t => t.result.text) = [txt "IMGRESULT", txt "IMGRESULT"] ∧
    txt "IMGRESULT" ≠ noImageText := by
  exact ⟨rfl, by decide⟩

/-- **C10 (amended).**  A successful ImageAnalysis dispatch schedules
the consumption of the attached image: the handler returns the language
model's answer together with the session future renders observe, which
is identical except that `attachedImage` is cleared, and a dispatch
reading that updated state (e.g. the next user message's run) soft-fails
with the no-image message.  Within the SAME plan execution, however,
every handler reads the render-captured state, so a second ImageAnalysis
step with no re-attachment re-analyzes the same image instead of
soft-failing. -/
theorem imageAnalysis_consumes_attachment (O : Oracles) (sess : Session)
    (img : ImageFile) (p1 p2 : List Char) (h : sess.attachedImage = some img) :
    handleImageAnalysisQuery O sess p1 =
      (AgentMsg.mk "ImageAnalysisAgent" (O.llmImg p1 img) none,
        { sess with attachedImage := none }) ∧
    ((handleImageAnalysisQuery O sess p1).2.attachedImage = none ∧
     (handleImageAnalysisQuery O sess p1).2.uploadedFiles = sess.uploadedFiles ∧
     (handleImageAnalysisQuery O sess p1).2.vectorStore = sess.vectorStore ∧
     (handleImageAnalysisQuery O sess p1).2.modelReady = sess.modelReady) ∧
    handleImageAnalysisQuery O { sess with attachedImage := none } p2 =
      (AgentMsg.mk "ImageAnalysisAgent" noImageText none,
        { sess with attachedImage := none }) ∧
    (executePlan O sess [PlanStep.mk "ImageAnalysisAgent" p1,
        PlanStep.mk "ImageAnalysisAgent" p2]).map (fun t => t.result.text) =
      [O.llmImg p1 img,
       O.llmImg (resolvePrompt [(stepKey 1, O.llmImg p1 img)] p2) img] := by
  obtain ⟨ai, files, store, ready⟩ := sess
  simp only [Session.attachedImage] at h
  subst h
  refine ⟨rfl, ⟨rfl, rfl, rfl, rfl⟩, rfl, ?_⟩
  simp [executePlan, execSteps, callAgent, handleImageAnalysisQuery, resolvePrompt]

theorem imageAnalysis_consumes_attachment_witness :
    handleImageAnalysisQuery demoOracles
        { demoSession with attachedImage := some demoImage } (txt "p1") =
      (AgentMsg.mk "ImageAnalysisAgent"
          (demoOracles.llmImg (txt "p1") demoImage) none,
        { { demoSession with attachedImage := some demoImage } with
            attachedImage := none }) ∧
    (executePlan demoOracles { demoSession with attachedImage := some demoImage }
        [PlanStep.mk "ImageAnalysisAgent" (txt "p1"),
         PlanStep.mk "ImageAnalysisAgent" (txt "p2")]).map
      (fun t => t.result.text) =
      [demoOracles.llmImg (txt "p1") demoImage,
       demoOracles.llmImg
         (resolvePrompt [(stepKey 1, demoOracles.llmImg (txt "p1") demoImage)]
           (txt "p2"))
         demoImage] :=
  ⟨(imageAnalysis_consumes_attachment demoOracles
      { demoSession with attachedImage := some demoImage } demoImage
      (txt "p1") (txt "p2") rfl).1,
   (imageAnalysis_consumes_attachment demoOracles
      { demoSession with attachedImage := some demoImage } demoImage
      (txt "p1") (txt "p2") rfl).2.2.2⟩

/-- **C2 (amended).**  The Planner never fails outright: a failed
language-model call, or a response on which the attempted `JSON.parse`
(the fenced capture when present and non-empty, else the whole response)
throws, yields the fallback one-step plan
`[\x7bWebSearchAgent, originalRequest\x7d]`, which is a valid non-empty
Plan; but a response whose attempted parse SUCCEEDS is returned exactly
as parsed, unvalidated — so a valid-JSON response that is not a
non-empty array of steps is passed through (the caller guards against
it). -/
theorem callPlanner_fallback_spec (resp : Option (List Char)) (prompt : List Char) :
    isValidPlan (fallbackPlan prompt) = true ∧
    (resp = none → callPlanner resp prompt = fallbackPlan prompt) ∧
    (∀ s, resp = some s → parseJson (attemptedInput s) = none →
        callPlanner resp prompt = fallbackPlan prompt) ∧
    (∀ s v, resp = some s → parseJson (attemptedInput s) = some v →
        callPlanner resp prompt = v) := by
  refine ⟨rfl, ?_, ?_, ?_⟩
  · intro h; subst h; rfl
  · intro s hs hparse
    subst hs
    unfold attemptedInput at hparse
    cases hfen : extractFenced s with
    | none =>
      rw [hfen] at hparse
      simp [callPlanner, hfen, hparse]
    | some cap =>
      rw [hfen] at hparse
      have hparse2 : parseJson (if cap.isEmpty = true then s else cap) = none := hparse
      by_cases hcap : cap.isEmpty
      · rw [if_pos hcap] at hparse2
        simp [callPlanner, hfen, hcap, hparse2]
      · rw [if_neg hcap] at hparse2
        simp [callPlanner, hfen, hcap, hparse2]
  · intro s v hs hparse
    subst hs
    unfold attemptedInput at hparse
    cases hfen : extractFenced s with
    | none =>
      rw [hfen] at hparse
      simp [callPlanner, hfen, hparse]
    | some cap =>
      rw [hfen] at hparse
      have hparse2 : parseJson (if cap.isEmpty = true then s else cap) = some v := hparse
      by_cases hcap : cap.isEmpty
      · rw [if_pos hcap] at hparse2
        simp [callPlanner, hfen, hcap, hparse2]
      · rw [if_neg hcap] at hparse2
        simp [callPlanner, hfen, hcap, hparse2]

theorem callPlanner_fallback_spec_witness :
    callPlanner (some (txt "banana")) (txt "req") = fallbackPlan (txt "req") ∧
    isValidPlan (fallbackPlan (txt "req")) = true :=
  ⟨(callPlanner_fallback_spec (some (txt "banana")) (txt "req")).2.2.1
      (txt "banana") rfl rfl,
   (callPlanner_fallback_spec (some (txt "banana")) (txt "req")).1⟩

/-- **C2 (counterexample).**  The response `[]` is valid JSON and has no
fenced block, so `JSON.parse` succeeds; the Planner returns the empty
array as the plan — not a valid, non-empty Plan, contradicting the
claim that it always returns one. -/
theorem callPlanner_empty_array_counterexample :
    callPlanner (some (txt "[]")) (txt "find the docs") = Json.arr [] ∧
    isValidPlan (Json.arr []) = false := by
  exact ⟨rfl, rfl⟩

/-- **C4.**  `findSimilarChunks` on an empty index, or when the
embedding collaborator fails on the query, returns the empty sequence
(the model is total: no error is ever raised). -/
theorem findSimilarChunks_empty_or_failed
    (embed : List Char → Option (List ℚ)) (modelReady : Bool)
    (vectorStore : List ChunkRec) (query : List Char) :
    (vectorStore = [] → findSimilarChunks embed modelReady vectorStore query = []) ∧
    (embed query = none → findSimilarChunks embed modelReady vectorStore query = []) := by
  constructor
  · intro h; subst h; rfl
  · intro h
    unfold findSimilarChunks
    split
    · rfl
    · rw [h]

theorem findSimilarChunks_empty_or_failed_witness :
    findSimilarChunks demoOracles.embed true [] (txt "q") = [] ∧
    findSimilarChunks (fun _ => none) true
        [ChunkRec.mk (txt "f") (txt "c") (some [1])] (txt "q") = [] :=
  ⟨(findSimilarChunks_empty_or_failed demoOracles.embed true [] (txt "q")).1 rfl,
   (findSimilarChunks_empty_or_failed (fun _ => none) true
      [ChunkRec.mk (txt "f") (txt "c") (some [1])] (txt "q")).2 rfl⟩

/-- Every record the per-file ingest produces has a present embedding:
the `filter(v => v.embedding)` keeps exactly those. -/
theorem mem_processFileVectors (embed : List Char → Option (List ℚ))
    (fileName textContent : List Char) (v : ChunkRec)
    (h : v ∈ processFileVectors embed fileName textContent) :
    v.embedding.isSome = true := by
  unfold processFileVectors at h
  split at h
  · exact (List.mem_filter.1 h).2
  · simp at h

/-- The ingest fold only ever appends records with present embeddings. -/
theorem mem_ingest_foldl (embed : List Char → Option (List ℚ))
    (files : List (List Char × Option (List Char))) :
    ∀ (acc : List ChunkRec) (v : ChunkRec),
      (∀ w ∈ acc, w.embedding.isSome = true) →
      v ∈ files.foldl (fun acc f =>
        match f.2 with
        | none => acc
        | some t => acc ++ processFileVectors embed f.1 t) acc →
      v.embedding.isSome = true := by
  induction files with
  | nil => intro acc v hacc hv; exact hacc v hv
  | cons f rest ih =>
    intro acc v hacc hv
    simp only [List.foldl_cons] at hv
    cases hf : f.2 with
    | none =>
      rw [hf] at hv
      exact ih acc v hacc hv
    | some t =>
      rw [hf] at hv
      refine ih (acc ++ processFileVectors embed f.1 t) v ?_ hv
      intro w hw
      rcases List.mem_append.1 hw with hw | hw
      · exact hacc w hw
      · exact mem_processFileVectors embed f.1 t w hw

/-- Query results come from the store: sorting is a permutation and
`slice` a sublist of it. -/
theorem findSimilarChunks_entry_mem (embed : List Char → Option (List ℚ))
    (modelReady : Bool) (vectorStore : List ChunkRec) (query : List Char)
    (s : Scored) (h : s ∈ findSimilarChunks embed modelReady vectorStore query) :
    s.entry ∈ vectorStore := by
  unfold findSimilarChunks at h
  split at h
  · simp at h
  · split at h
    · simp at h
    · have h1 := List.take_subset 3 _ h
      have h2 := (List.perm_insertionSort simDesc _).mem_iff.1 h1
      obtain ⟨v, hv, rfl⟩ := List.mem_map.1 h2
      exact hv

/-- **C7.**  The vector index only ever holds chunks with a present
embedding: ingest appends only successfully embedded chunks (failed ones
are dropped per chunk), removal keeps records untouched (each survivor
is a record of the old store), and query results therefore never carry
an absent embedding. -/
theorem vectorStore_embedding_invariant
    (embed : List Char → Option (List ℚ)) (modelReady : Bool)
    (store : List ChunkRec) (files : List (List Char × Option (List Char)))
    (fileName query : List Char)
    (hstore : ∀ v ∈ store, v.embedding.isSome = true) :
    (∀ v ∈ processAndEmbedFiles embed modelReady store files,
        v.embedding.isSome = true) ∧
    (∀ v ∈ removeFileChunks store fileName, v ∈ store) ∧
    (∀ s ∈ findSimilarChunks embed modelReady store query,
        s.entry.embedding.isSome = true) := by
  refine ⟨?_, ?_, ?_⟩
  · intro v hv
    unfold processAndEmbedFiles at hv
    split at hv
    · exact hstore v hv
    · rcases List.mem_append.1 hv with hv | hv
      · exact hstore v hv
      · exact mem_ingest_foldl embed files [] v (by simp) hv
  · intro v hv
    exact List.mem_of_mem_filter hv
  · intro s hs
    exact hstore s.entry (findSimilarChunks_entry_mem embed modelReady store query s hs)

theorem vectorStore_embedding_invariant_witness :
    (∀ v ∈ processAndEmbedFiles demoOracles.embed true
        [ChunkRec.mk (txt "f") (txt "c") (some [1])]
        [(txt "g", some (txt "hello")), (txt "img.png", none)],
        v.embedding.isSome = true) ∧
    (∀ v ∈ removeFileChunks [ChunkRec.mk (txt "f") (txt "c") (some [1])] (txt "f"),
        v ∈ [ChunkRec.mk (txt "f") (txt "c") (some [1])]) ∧
    (∀ s ∈ findSimilarChunks demoOracles.embed true
        [ChunkRec.mk (txt "f") (txt "c") (some [1])] (txt "q"),
        s.entry.embedding.isSome = true) :=
  vectorStore_embedding_invariant demoOracles.embed true
    [ChunkRec.mk (txt "f") (txt "c") (some [1])]
    [(txt "g", some (txt "hello")), (txt "img.png", none)]
    (txt "f") (txt "q") (by decide)

/-- For a non-negative start the JS `substring(i, i + S)` is plain
take-after-drop. -/
theorem jsSubstring_nonneg (s : List Char) (i S : ℕ) :
    jsSubstring s (i : ℤ) ((i : ℤ) + (S : ℤ)) = (s.drop i).take S := by
  unfold jsSubstring
  have hA : (min (max 0 (min (i : ℤ) (s.length : ℤ)))
      (max 0 (min ((i : ℤ) + (S : ℤ)) (s.length : ℤ)))).toNat = min i s.length := by
    omega
  have hB : (max (max 0 (min (i : ℤ) (s.length : ℤ)))
      (max 0 (min ((i : ℤ) + (S : ℤ)) (s.length : ℤ)))).toNat = min (i + S) s.length := by
    omega
  rw [hA, hB]
  rw [← List.take_take, List.take_length]
  rcases Nat.le_total i s.length with hle | hle
  · rw [Nat.min_eq_left hle, List.drop_take]
    congr 1
    omega
  · rw [Nat.min_eq_right hle]
    rw [List.take_of_length_le (by omega : s.length ≤ i + S), List.drop_length,
      List.drop_eq_nil_of_le hle]
    simp

/-- With `overlap < chunkSize` the chunker's loop runs exactly
`ceil((L - i) / step)` more iterations from counter `i`, appending the
take-after-drop windows at offsets `i, i + step, ...`. -/
theorem chunkRun_reaches (text : List Char) (S O : ℕ) (hO : O < S) :
    ∀ (m fuel i : ℕ) (acc : List (List Char)),
      m ≤ fuel →
      text.length ≤ i + m * (S - O) →
      i + m * (S - O) < text.length + (S - O) →
      chunkRun text S O fuel ((i : ℤ), acc) =
        some (((i + m * (S - O) : ℕ) : ℤ),
          acc ++ (List.range' i m (S - O)).map (fun off => (text.drop off).take S)) := by
  intro m
  induction m with
  | zero =>
    intro fuel i acc _ hge _
    unfold chunkRun
    rw [if_neg (by push_cast; omega)]
    simp
  | succ m ih =>
    intro fuel i acc hfuel hge hlt
    rw [Nat.succ_mul] at hge hlt
    obtain ⟨f, rfl⟩ : ∃ f, fuel = f + 1 := ⟨fuel - 1, by omega⟩
    unfold chunkRun
    rw [if_pos (by push_cast; omega)]
    show chunkRun text S O f (chunkBody text S O ((i : ℤ), acc)) = _
    have hbody : chunkBody text S O ((i : ℤ), acc) =
        (((i + (S - O) : ℕ) : ℤ), acc ++ [(text.drop i).take S]) := by
      unfold chunkBody
      refine Prod.ext ?_ ?_
      · show (i : ℤ) + ((S : ℤ) - (O : ℤ)) = ((i + (S - O) : ℕ) : ℤ)
        push_cast
        omega
      · show acc ++ [jsSubstring text (i : ℤ) ((i : ℤ) + (S : ℤ))] = _
        rw [jsSubstring_nonneg]
    rw [hbody,
      ih f (i + (S - O)) (acc ++ [(text.drop i).take S]) (by omega) (by omega) (by omega),
      List.range'_succ]
    simp only [List.map_cons]
    refine congrArg some (Prod.ext ?_ ?_)
    · show ((i + (S - O) + m * (S - O) : ℕ) : ℤ) = ((i + (m + 1) * (S - O) : ℕ) : ℤ)
      rw [Nat.succ_mul]
      push_cast
      omega
    · show (acc ++ [(text.drop i).take S]) ++ _ = acc ++ ((text.drop i).take S :: _)
      simp

/-- **C5.**  With `overlap < size` the chunker produces exactly
`ceil(L / (size - overlap))` chunks; chunk `k` starts `size - overlap`
characters after chunk `k - 1` (it is the window of at most `size`
characters at offset `k * (size - overlap)`); dropping the first
`size - overlap` characters of a chunk yields a prefix of the next chunk
(the `overlap`-character boundary agreement); and the output is empty
exactly when the text is empty. -/
theorem chunkText_spec (text : List Char) (S O : ℕ) (hO : O < S) :
    ∃ out, chunkText text S O = some out ∧
      out.length = (text.length + (S - O) - 1) / (S - O) ∧
      (∀ k, ∀ hk : k < out.length,
        out.get ⟨k, hk⟩ = (text.drop ((S - O) * k)).take S) ∧
      (∀ k, ∀ hk : k + 1 < out.length,
        ((out.get ⟨k, Nat.lt_of_succ_lt hk⟩).drop (S - O)).isPrefixOf
          (out.get ⟨k + 1, hk⟩) = true) ∧
      (out = [] ↔ text = []) := by
  have hd : 0 < S - O := by omega
  have h1 : ((text.length + (S - O) - 1) / (S - O)) * (S - O) ≤ text.length + (S - O) - 1 :=
    Nat.div_mul_le_self _ _
  have h2 : text.length + (S - O) - 1 < ((text.length + (S - O) - 1) / (S - O) + 1) * (S - O) :=
    (Nat.div_lt_iff_lt_mul hd).1 (by omega)
  rw [Nat.succ_mul] at h2
  have hfuel : (text.length + (S - O) - 1) / (S - O) ≤ text.length + 1 := by
    by_contra hcon
    push_neg at hcon
    have hx : (text.length + 2) * (S - O) ≤
        ((text.length + (S - O) - 1) / (S - O)) * (S - O) :=
      Nat.mul_le_mul_right _ (by omega)
    rw [Nat.add_mul] at hx
    have hLd : text.length ≤ text.length * (S - O) := Nat.le_mul_of_pos_right _ hd
    omega
  have hrun := chunkRun_reaches text S O hO ((text.length + (S - O) - 1) / (S - O))
    (text.length + 1) 0 [] hfuel (by omega) (by omega)
  simp only [Nat.cast_zero, Nat.zero_add, List.nil_append] at hrun
  refine ⟨(List.range' 0 ((text.length + (S - O) - 1) / (S - O)) (S - O)).map
    (fun off => (text.drop off).take S), ?_, ?_, ?_, ?_, ?_⟩
  · unfold chunkText
    rw [hrun]
    simp
  · simp
  · intro k hk
    simp only [List.length_map, List.length_range'] at hk
    simp [List.get_eq_getElem, List.getElem_map, List.getElem_range']
  · intro k hk
    simp only [List.length_map, List.length_range'] at hk
    simp only [List.get_eq_getElem, List.getElem_map, List.getElem_range', Nat.zero_add]
    rw [List.drop_take, List.drop_drop]
    have hSO : S - (S - O) = O := by omega
    rw [hSO]
    have harith : (S - O) * k + (S - O) = (S - O) * (k + 1) := by
      rw [Nat.mul_succ]
    rw [harith, List.isPrefixOf_iff_prefix]
    exact List.take_prefix_take_left _ (by omega)
  · rw [List.map_eq_nil_iff, ← List.length_eq_zero (l := text)]
    constructor
    · intro h
      have hlen : (List.range' 0 ((text.length + (S - O) - 1) / (S - O)) (S - O)).length = 0 := by
        rw [h]; rfl
      rw [List.length_range'] at hlen
      rw [hlen, Nat.zero_mul] at h2
      omega
    · intro h
      have : (text.length + (S - O) - 1) / (S - O) = 0 :=
        Nat.div_eq_of_lt (by omega)
      rw [this]
      rfl

theorem chunkText_spec_witness :
    ∃ out, chunkText (txt "abcdefghij") 4 1 = some out ∧
      out.length = ((txt "abcdefghij").length + (4 - 1) - 1) / (4 - 1) ∧
      (∀ k, ∀ hk : k < out.length,
        out.get ⟨k, hk⟩ = ((txt "abcdefghij").drop ((4 - 1) * k)).take 4) ∧
      (∀ k, ∀ hk : k + 1 < out.length,
        ((out.get ⟨k, Nat.lt_of_succ_lt hk⟩).drop (4 - 1)).isPrefixOf
          (out.get ⟨k + 1, hk⟩) = true) ∧
      (out = [] ↔ txt "abcdefghij" = []) :=
  chunkText_spec (txt "abcdefghij") 4 1 (by omega)

/-- With `overlap ≥ size` the loop counter never advances past the text:
every iteration leaves it at or below 0, so the guard `i < text.length`
holds forever and the loop never exits, whatever iteration budget it is
given. -/
theorem chunkRun_overlap_ge_size_never_exits (text : List Char) (S O : ℕ)
    (hO : S ≤ O) (htext : text ≠ []) :
    ∀ (fuel : ℕ) (i : ℤ) (acc : List (List Char)), i ≤ 0 →
      chunkRun text S O fuel (i, acc) = none := by
  have hlen : 0 < text.length := List.length_pos.2 htext
  intro fuel
  induction fuel with
  | zero =>
    intro i acc hi
    unfold chunkRun
    rw [if_pos (by push_cast; omega)]
  | succ f ih =>
    intro i acc hi
    unfold chunkRun
    rw [if_pos (by push_cast; omega)]
    show chunkRun text S O f (chunkBody text S O (i, acc)) = none
    unfold chunkBody
    exact ih _ _ (by push_cast; omega)

/-- **C6.**  The code performs no `overlap < size` validation at all: on
   `overlap ≥ size` with a non-empty text the JS `for` loop never
terminates (the counter gains `size - overlap ≤ 0` per iteration), so no
configuration error is reported and the operation does not abort — the
loop model returns `none` (guard still true) for every iteration budget.
This contradicts the claim, which demands a reported configuration
error; the claim matches the spec's stated intent, the code is the
slip. -/
theorem chunkText_overlap_ge_size_diverges (text : List Char) (S O : ℕ)
    (hO : S ≤ O) (htext : text ≠ []) :
    (∀ fuel : ℕ, ∀ acc : List (List Char),
        chunkRun text S O fuel (0, acc) = none) ∧
    chunkText text S O = none := by
  refine ⟨fun fuel acc =>
    chunkRun_overlap_ge_size_never_exits text S O hO htext fuel 0 acc le_rfl, ?_⟩
  unfold chunkText
  rw [chunkRun_overlap_ge_size_never_exits text S O hO htext _ 0 [] le_rfl]
  rfl

theorem chunkText_overlap_ge_size_diverges_witness :
    (∀ fuel : ℕ, ∀ acc : List (List Char),
        chunkRun (txt "ab") 2 2 fuel (0, acc) = none) ∧
    chunkText (txt "ab") 2 2 = none :=
  chunkText_overlap_ge_size_diverges (txt "ab") 2 2 (by omega) (by decide)

/-- Indices attached by `withIdx` start at `n`. -/
theorem mem_withIdx (l : List Scored) :
    ∀ (n : ℕ) (x : ℕ × Scored), x ∈ withIdx n l → n ≤ x.1 := by
  induction l with
  | nil => intro n x h; simp [withIdx] at h
  | cons a t ih =>
    intro n x h
    unfold withIdx at h
    rcases List.mem_cons.1 h with rfl | h
    · exact le_refl n
    · exact Nat.le_of_succ_le (ih (n + 1) x h)

/-- Inserting an element whose index is smaller than every index in the
list makes the lexicographic comparison collapse to the score
comparison: projecting away the indices commutes with the ordered
insert. -/
theorem map_snd_orderedInsert_rankLex (n : ℕ) (a : Scored) :
    ∀ L : List (ℕ × Scored), (∀ x ∈ L, n < x.1) →
      (List.orderedInsert rankLex (n, a) L).map Prod.snd =
        List.orderedInsert simDesc a (L.map Prod.snd) := by
  intro L
  induction L with
  | nil => intro _; rfl
  | cons b L' ih =>
    intro h
    by_cases hr : rankLex (n, a) b
    · have hs : simDesc a b.2 := by
        rcases hr with h1 | ⟨h2, _⟩
        · exact le_of_lt h1
        · exact le_of_eq h2.symm
      simp [List.orderedInsert, hr, hs]
    · have hs : ¬ simDesc a b.2 := by
        intro hcon
        apply hr
        rcases lt_or_eq_of_le hcon with h1 | h1
        · exact Or.inl h1
        · exact Or.inr ⟨h1.symm, Nat.le_of_lt (h b (by simp))⟩
      simp only [List.orderedInsert, if_neg hr, if_neg hs, List.map_cons]
      rw [ih (fun x hx => h x (by simp [hx]))]

/-- The JS stable sort by score descending coincides with sorting the
index-tagged list by the lexicographic order (score descending, index
ascending) and projecting the indices away. -/
theorem insertionSort_stable_eq_rankLex (l : List Scored) :
    ∀ n : ℕ, List.insertionSort simDesc l =
      (List.insertionSort rankLex (withIdx n l)).map Prod.snd := by
  induction l with
  | nil => intro n; rfl
  | cons a t ih =>
    intro n
    show List.orderedInsert simDesc a (List.insertionSort simDesc t) = _
    rw [show withIdx n (a :: t) = (n, a) :: withIdx (n + 1) t from rfl]
    show _ = (List.orderedInsert rankLex (n, a)
      (List.insertionSort rankLex (withIdx (n + 1) t))).map Prod.snd
    have hmem : ∀ x ∈ List.insertionSort rankLex (withIdx (n + 1) t), n < x.1 :=
      fun x hx => Nat.lt_of_lt_of_le (Nat.lt_succ_self n)
        (mem_withIdx t (n + 1) x ((List.perm_insertionSort rankLex _).mem_iff.1 hx))
    rw [map_snd_orderedInsert_rankLex n a _ hmem, ← ih (n + 1)]

/-- **C3.**  On a non-empty index with a successfully embedded query,
`findSimilarChunks` scores every stored chunk by the dot product of the
query embedding with the chunk embedding and returns the top 3 of the
ranking by score descending with ties broken by original insertion order
(first inserted wins); being a pure function of the index and the query
embedding, repeated calls return the same ordering. -/
theorem findSimilarChunks_spec_ranked (embed : List Char → Option (List ℚ))
    (store : List ChunkRec) (query : List Char) (qe : List ℚ)
    (hne : store ≠ []) (hq : embed query = some qe) :
    findSimilarChunks embed true store query = rankedBySpec qe store ∧
    findSimilarChunks embed true store query =
      findSimilarChunks embed true store query := by
  refine ⟨?_, rfl⟩
  unfold findSimilarChunks rankedBySpec
  rw [if_neg (by simp [List.length_eq_zero, hne]), hq]
  show (List.insertionSort simDesc
      (store.map (fun v => Scored.mk v (dotProduct qe (v.embedding.getD []))))).take 3 = _
  rw [insertionSort_stable_eq_rankLex
    (store.map (fun v => Scored.mk v (dotProduct qe (v.embedding.getD [])))) 0]

theorem findSimilarChunks_spec_ranked_witness :
    findSimilarChunks (fun _ => some [1]) true
        [ChunkRec.mk (txt "f") (txt "A") (some [1]),
         ChunkRec.mk (txt "f") (txt "B") (some [2]),
         ChunkRec.mk (txt "f") (txt "C") (some [1]),
         ChunkRec.mk (txt "f") (txt "D") (some [1])] (txt "q") =
      rankedBySpec [1]
        [ChunkRec.mk (txt "f") (txt "A") (some [1]),
         ChunkRec.mk (txt "f") (txt "B") (some [2]),
         ChunkRec.mk (txt "f") (txt "C") (some [1]),
         ChunkRec.mk (txt "f") (txt "D") (some [1])] :=
  (findSimilarChunks_spec_ranked (fun _ => some [1])
    [ChunkRec.mk (txt "f") (txt "A") (some [1]),
     ChunkRec.mk (txt "f") (txt "B") (some [2]),
     ChunkRec.mk (txt "f") (txt "C") (some [1]),
     ChunkRec.mk (txt "f") (txt "D") (some [1])] (txt "q") [1]
    (by simp) rfl).1
